import Mathlib

/-!
Verification of the LIEF ELF parsing slice: the `CoreAuxv` note detail
(`src/ELF/NoteDetails/core/CoreAuxv.cpp`), the structural limits and the
bounded decoding loops of `ELF::Parser` (`include/LIEF/ELF/Parser.hpp`),
the dynamic-symbol-count resolver, the symbol-versioning linker, and the
header validation path.  Pure C++ code present in the repository is
embedded directly; template bodies that live in `.tcc` files absent from
the slice are modelled from the specification, as marked on each
definition.
-/

namespace LIEF

namespace ELF

/-! ## Little-endian byte serialization

Modelled from the spec: the width-parameterized primitive layer decodes
"native words" of 4 or 8 bytes; `leBytes w x` is the `w`-byte
little-endian encoding of `x`, `fromLEBytes` its inverse. -/

/-- Little-endian encoding of `x` on `w` bytes (overflowing bits dropped). -/
def leBytes : Nat → Nat → List Nat
  | 0, _ => []
  | w + 1, x => (x % 256) :: leBytes w (x / 256)

/-- Little-endian decoding of a byte list. -/
def fromLEBytes : List Nat → Nat
  | [] => 0
  | b :: t => b + 256 * fromLEBytes t

theorem length_leBytes (w x : Nat) : (leBytes w x).length = w := by
  induction w generalizing x with
  | zero => rfl
  | succ w ih => simp [leBytes, ih]

theorem fromLEBytes_leBytes (w x : Nat) :
    fromLEBytes (leBytes w x) = x % 256 ^ w := by
  induction w generalizing x with
  | zero => simp [leBytes, fromLEBytes, Nat.mod_one]
  | succ w ih =>
      simp only [leBytes, fromLEBytes, ih]
      rw [pow_succ', Nat.mod_mul]

/-! ## The `CoreAuxv` mapping

`CoreAuxv::ctx_` is a `std::map<AUX_TYPE, uint64_t>`: an ordered map with
unique keys.  We embed it as a list of `(key, value)` pairs whose keys are
strictly increasing (`AuxSorted`), keys being the numeric codes of the
`AUX_TYPE` enumeration. -/

/-- The `val_context_t` mapping of a `CoreAuxv` note: association list of
(auxiliary-vector key code, value) pairs, kept strictly sorted by key. -/
abbrev AuxMap := List (Nat × Nat)

/-- The `std::map` ordering invariant: keys strictly increase. -/
def AuxSorted (m : AuxMap) : Prop := m.Pairwise (fun a b => a.1 < b.1)

instance (m : AuxMap) : Decidable (AuxSorted m) := by
  unfold AuxSorted; infer_instance

/-- `std::map::operator[]`-style insertion: overwrites the value when the key
is present, otherwise inserts at the sorted position. -/
def auxInsert (k v : Nat) : AuxMap → AuxMap
  | [] => [(k, v)]
  | (k', v') :: t =>
      if k < k' then (k, v) :: (k', v') :: t
      else if k = k' then (k, v) :: t
      else (k', v') :: auxInsert k v t

/-- `std::map::find` / `std::map::at`: look a key up. -/
def auxLookup (k : Nat) : AuxMap → Option Nat
  | [] => none
  | (k', v') :: t => if k = k' then some v' else auxLookup k t

theorem auxLookup_auxInsert_self (k v : Nat) (m : AuxMap) :
    auxLookup k (auxInsert k v m) = some v := by
  induction m with
  | nil => simp [auxInsert, auxLookup]
  | cons p t ih =>
      obtain ⟨k', v'⟩ := p
      by_cases h1 : k < k'
      · simp [auxInsert, auxLookup, h1]
      · by_cases h2 : k = k'
        · simp [auxInsert, auxLookup, h1, h2]
        · simp [auxInsert, auxLookup, h1, h2, ih]

theorem auxLookup_auxInsert_ne (k v j : Nat) (m : AuxMap) (hne : j ≠ k) :
    auxLookup j (auxInsert k v m) = auxLookup j m := by
  induction m with
  | nil => simp [auxInsert, auxLookup, hne]
  | cons p t ih =>
      obtain ⟨k', v'⟩ := p
      by_cases h1 : k < k'
      · rw [auxInsert, if_pos h1, auxLookup, if_neg hne]
      · by_cases h2 : k = k'
        · subst h2
          rw [auxInsert, if_neg h1, if_pos rfl, auxLookup, if_neg hne,
              auxLookup, if_neg hne]
        · rw [auxInsert, if_neg h1, if_neg h2]
          by_cases h3 : j = k'
          · rw [auxLookup, if_pos h3, auxLookup, if_pos h3]
          · rw [auxLookup, if_neg h3, auxLookup, if_neg h3, ih]

theorem mem_auxInsert_key (k v : Nat) (m : AuxMap) (p : Nat × Nat)
    (hp : p ∈ auxInsert k v m) : p.1 = k ∨ p ∈ m := by
  induction m with
  | nil => simp [auxInsert] at hp; simp [hp]
  | cons q t ih =>
      obtain ⟨k', v'⟩ := q
      by_cases h1 : k < k'
      · rw [auxInsert, if_pos h1] at hp
        rcases List.mem_cons.1 hp with h | h
        · left; rw [h]
        · right; exact h
      · by_cases h2 : k = k'
        · rw [auxInsert, if_neg h1, if_pos h2] at hp
          rcases List.mem_cons.1 hp with h | h
          · left; rw [h]
          · right; exact List.mem_cons_of_mem _ h
        · rw [auxInsert, if_neg h1, if_neg h2] at hp
          rcases List.mem_cons.1 hp with h | h
          · right; rw [h]; exact List.mem_cons_self _ _
          · rcases ih h with h' | h'
            · left; exact h'
            · right; exact List.mem_cons_of_mem _ h'

theorem auxSorted_auxInsert (k v : Nat) (m : AuxMap) (h : AuxSorted m) :
    AuxSorted (auxInsert k v m) := by
  induction m with
  | nil => simp [auxInsert, AuxSorted]
  | cons p t ih =>
      obtain ⟨k', v'⟩ := p
      rw [AuxSorted, List.pairwise_cons] at h
      obtain ⟨hall, htail⟩ := h
      by_cases h1 : k < k'
      · rw [AuxSorted, auxInsert, if_pos h1]
        refine List.pairwise_cons.2 ⟨?_, List.pairwise_cons.2 ⟨hall, htail⟩⟩
        intro q hq
        rcases List.mem_cons.1 hq with h' | h'
        · rw [h']; exact h1
        · exact lt_trans h1 (hall _ h')
      · by_cases h2 : k = k'
        · rw [AuxSorted, auxInsert, if_neg h1, if_pos h2]
          refine List.pairwise_cons.2 ⟨?_, htail⟩
          intro q hq
          exact h2 ▸ hall _ hq
        · rw [AuxSorted, auxInsert, if_neg h1, if_neg h2]
          refine List.pairwise_cons.2 ⟨?_, ih htail⟩
          intro q hq
          rcases mem_auxInsert_key k v t q hq with h' | h'
          · omega
          · exact hall _ h'

/-! ## `CoreAuxv` serialization

Modelled from the spec: the note decoder "interprets the description
payload as a sequence of (typed key, 64-bit value) pairs sized according
to the binary's word width; building back from the mapping re-derives the
exact byte payload".  `w` is the word width in bytes (4 for `ELFCLASS32`,
8 for `ELFCLASS64`, chosen by `CoreAuxv::parse`/`build` from the owning
binary's class). -/

/-- Modelled from the spec: recognized auxiliary-vector key codes — the
numeric values of the fixed `AUX_TYPE` enumeration (`AT_NULL = 0` up to
the last recognized code, including `AT_PAGESZ = 6`, `AT_ENTRY = 9`,
`AT_UID = 11`). -/
def recognizedAux (k : Nat) : Bool := k ≤ 37

/-- Modelled from the spec: `CoreAuxv::build_<ELF_T>` — serialize the
mapping as consecutive (key word, value word) pairs in key order. -/
def buildDesc (w : Nat) (ctx : AuxMap) : List Nat :=
  (ctx.map (fun p => leBytes w p.1 ++ leBytes w p.2)).flatten

/-- Modelled from the spec: split the description payload into
(key, value) word pairs, while a full pair remains. -/
def readPairs (w : Nat) (bytes : List Nat) : List (Nat × Nat) :=
  if h : 0 < w ∧ 2 * w ≤ bytes.length then
    (fromLEBytes (bytes.take w), fromLEBytes ((bytes.drop w).take w)) ::
      readPairs w (bytes.drop (2 * w))
  else []
  termination_by bytes.length
  decreasing_by
    simp only [List.length_drop]
    omega

/-- Modelled from the spec: `CoreAuxv::parse_<ELF_T>` — decode the
description payload into the mapping, later pairs overwriting earlier
ones with an equal key. -/
def parseDesc (w : Nat) (bytes : List Nat) : AuxMap :=
  (readPairs w bytes).foldl (fun m p => auxInsert p.1 p.2 m) []

theorem take_append_exact (l1 l2 : List Nat) (n : Nat) (h : l1.length = n) :
    (l1 ++ l2).take n = l1 := by
  subst h
  exact List.take_left l1 l2

theorem drop_append_exact (l1 l2 : List Nat) (n : Nat) (h : l1.length = n) :
    (l1 ++ l2).drop n = l2 := by
  subst h
  exact List.drop_left l1 l2

theorem readPairs_buildDesc (w : Nat) (hw : 0 < w) (ctx : AuxMap)
    (hfit : ∀ p ∈ ctx, p.1 < 256 ^ w ∧ p.2 < 256 ^ w) :
    readPairs w (buildDesc w ctx) = ctx := by
  induction ctx with
  | nil =>
      rw [readPairs, dif_neg]
      rintro ⟨h1, h2⟩
      simp [buildDesc] at h2
      omega
  | cons p t ih =>
      obtain ⟨k, v⟩ := p
      have hk : k < 256 ^ w := (hfit (k, v) (List.mem_cons_self _ _)).1
      have hv : v < 256 ^ w := (hfit (k, v) (List.mem_cons_self _ _)).2
      have hbuild : buildDesc w ((k, v) :: t) =
          (leBytes w k ++ leBytes w v) ++ buildDesc w t := by
        simp [buildDesc]
      have hlen2 : (leBytes w k ++ leBytes w v).length = 2 * w := by
        simp [length_leBytes]
        omega
      have hlen : 2 * w ≤ (buildDesc w ((k, v) :: t)).length := by
        rw [hbuild, List.length_append, hlen2]
        omega
      rw [readPairs, dif_pos ⟨hw, hlen⟩]
      have htake1 : (buildDesc w ((k, v) :: t)).take w = leBytes w k := by
        rw [hbuild, List.append_assoc]
        exact take_append_exact _ _ _ (length_leBytes w k)
      have hdrop1 : (buildDesc w ((k, v) :: t)).drop w =
          leBytes w v ++ buildDesc w t := by
        rw [hbuild, List.append_assoc]
        exact drop_append_exact _ _ _ (length_leBytes w k)
      have htake2 : ((buildDesc w ((k, v) :: t)).drop w).take w = leBytes w v := by
        rw [hdrop1]
        exact take_append_exact _ _ _ (length_leBytes w v)
      have hdrop2 : (buildDesc w ((k, v) :: t)).drop (2 * w) = buildDesc w t := by
        rw [hbuild]
        exact drop_append_exact _ _ _ hlen2
      rw [htake1, htake2, hdrop2, fromLEBytes_leBytes, fromLEBytes_leBytes,
          Nat.mod_eq_of_lt hk, Nat.mod_eq_of_lt hv,
          ih (fun q hq => hfit q (List.mem_cons_of_mem _ hq))]

theorem auxInsert_append_max (k v : Nat) (m : AuxMap)
    (hmax : ∀ p ∈ m, p.1 < k) : auxInsert k v m = m ++ [(k, v)] := by
  induction m with
  | nil => rfl
  | cons q t ih =>
      obtain ⟨k', v'⟩ := q
      have hk' : k' < k := hmax (k', v') (List.mem_cons_self _ _)
      rw [auxInsert, if_neg (by omega), if_neg (by omega), List.cons_append,
          ih (fun p hp => hmax p (List.mem_cons_of_mem _ hp))]

theorem foldl_auxInsert_sorted (l acc : AuxMap)
    (h : AuxSorted (acc ++ l)) :
    l.foldl (fun m p => auxInsert p.1 p.2 m) acc = acc ++ l := by
  induction l generalizing acc with
  | nil => simp
  | cons p t ih =>
      obtain ⟨k, v⟩ := p
      have hmax : ∀ q ∈ acc, q.1 < k := by
        intro q hq
        have := (List.pairwise_append.1 (by
          rw [AuxSorted] at h
          exact h)).2.2
        exact this q hq (k, v) (List.mem_cons_self _ _)
      have hins : auxInsert k v acc = acc ++ [(k, v)] :=
        auxInsert_append_max k v acc hmax
      rw [List.foldl_cons]
      have : ((acc ++ [(k, v)]) ++ t) = acc ++ (k, v) :: t := by
        simp
      rw [hins, ih (acc ++ [(k, v)]) (by rw [this]; exact h)]
      simp

theorem parseDesc_buildDesc (w : Nat) (hw : 0 < w) (ctx : AuxMap)
    (hsorted : AuxSorted ctx)
    (hfit : ∀ p ∈ ctx, p.1 < 256 ^ w ∧ p.2 < 256 ^ w) :
    parseDesc w (buildDesc w ctx) = ctx := by
  rw [parseDesc, readPairs_buildDesc w hw ctx hfit]
  exact foldl_auxInsert_sorted ctx [] (by simpa using hsorted)

/-! ## The `CoreAuxv` note detail

Embedding of `src/ELF/NoteDetails/core/CoreAuxv.cpp`.  A `CoreAuxv`
carries the decoded mapping `ctx_` and the note's description payload
(the serialized byte form held by the owning `Note`).  The word width
`w` stands for the owning binary's class, fixed per note
(`CoreAuxv::build`/`parse` dispatch on `binary()->type()`). -/

/-- `CoreAuxv`: the decoded mapping `ctx_` plus the owning note's
description payload bytes. -/
structure CoreAuxv where
  ctx : AuxMap
  desc : List Nat
  deriving DecidableEq

namespace CoreAuxv

/-- `CoreAuxv::values() const` (CoreAuxv.cpp:47-49): return `ctx_`. -/
def valuesGet (a : CoreAuxv) : AuxMap := a.ctx

/-- `CoreAuxv::build()` (CoreAuxv.cpp:120-126): re-serialize `ctx_`
into the note's description, at the binary's word width. -/
def build (w : Nat) (a : CoreAuxv) : CoreAuxv :=
  { a with desc := buildDesc w a.ctx }

/-- `CoreAuxv::values(const val_context_t&)` (CoreAuxv.cpp:71-74):
replace `ctx_` and rebuild the payload. -/
def valuesSet (w : Nat) (a : CoreAuxv) (c : AuxMap) : CoreAuxv :=
  build w { a with ctx := c }

/-- `CoreAuxv::set` (CoreAuxv.cpp:76-80): `ctx_[atype] = value` then
rebuild the payload. -/
def set (w : Nat) (a : CoreAuxv) (atype value : Nat) : CoreAuxv :=
  build w { a with ctx := auxInsert atype value a.ctx }

/-- Assignment through `CoreAuxv::operator[]` (CoreAuxv.cpp:96-98): the
returned reference writes straight into `ctx_`; no rebuild happens. -/
def indexAssign (a : CoreAuxv) (atype value : Nat) : CoreAuxv :=
  { a with ctx := auxInsert atype value a.ctx }

/-- `CoreAuxv::has` (CoreAuxv.cpp:66-68): `ctx_.find(atype) != end`. -/
def has (a : CoreAuxv) (atype : Nat) : Bool :=
  (auxLookup atype a.ctx).isSome

/-- `CoreAuxv::get` with a non-null `error` out-parameter
(CoreAuxv.cpp:52-64): result value paired with the flag written through
`error`. -/
def get (a : CoreAuxv) (atype : Nat) : Nat × Bool :=
  if a.has atype then ((auxLookup atype a.ctx).getD 0, false)
  else (0, true)

/-- `CoreAuxv::get` called with `error == nullptr` (CoreAuxv.cpp:52-64):
same returned value, the flag is never written. -/
def getNull (a : CoreAuxv) (atype : Nat) : Nat :=
  (a.get atype).1

/-- `CoreAuxv::parse()` (CoreAuxv.cpp:112-118): decode the description
payload into `ctx_` at the binary's word width. -/
def parse (w : Nat) (a : CoreAuxv) : CoreAuxv :=
  { a with ctx := parseDesc w a.desc }

end CoreAuxv

/-! ## Parser structural limits

Embedding of the constants of `include/LIEF/ELF/Parser.hpp:46-57`.  The
`1_MB` / `300_MB` user-defined literals come from `LIEF/utils.hpp`
(binary mebibytes, per the spec's "1 MiB" / "300 MiB"). -/

namespace Parser

def NB_MAX_SYMBOLS : Nat := 1000000

def DELTA_NB_SYMBOLS : Nat := 3000

def NB_MAX_BUCKETS : Nat := NB_MAX_SYMBOLS

def NB_MAX_CHAINS : Nat := 1000000

def NB_MAX_SECTION : Nat := 10000

def NB_MAX_SEGMENTS : Nat := 10000

def NB_MAX_RELOCATIONS : Nat := 3000000

def NB_MAX_DYNAMIC_ENTRIES : Nat := 1000

def NB_MAX_MASKWORD : Nat := 512

def MAX_NOTE_DESCRIPTION : Nat := 1 * 1024 * 1024

def MAX_SECTION_SIZE : Nat := 300 * 1024 * 1024

def MAX_SEGMENT_SIZE : Nat := MAX_SECTION_SIZE

end Parser

/-! ## Bounded byte stream and tolerant table decoding

Modelled from the spec: the bounded byte stream (§4.1) offers
`read(offset, length) -> bytes | OutOfBounds`; every decoder routes all
reads through it.  A table decoder (§4.3) reads, for each of the declared
entries capped at a hard maximum, one fixed-size record at
`table_offset + i * entry_size`, and a record whose extent exceeds the
stream is skipped rather than aborting. -/

/-- Modelled from the spec: `BinaryStream`-style bounded read.  The bytes
returned are exactly those at indices `off, off+1, …, off+len-1`; an
out-of-range request fails recoverably instead of touching any byte. -/
def streamRead (bytes : List Nat) (off len : Nat) : Option (List Nat) :=
  if off + len ≤ bytes.length then
    some ((List.range len).map (fun j => bytes.getD (off + j) 0))
  else none

/-- Modelled from the spec: generic tolerant table-decoding loop — at most
`min count cap` iterations, each reading one `entsize`-byte record,
skipping records that fall outside the stream. -/
def parseTable (bytes : List Nat) (off entsize count cap : Nat) :
    List (List Nat) :=
  (List.range (min count cap)).filterMap
    (fun i => streamRead bytes (off + i * entsize) entsize)

/-- Modelled from the spec: `Parser::parse_sections` loop shape — `e_shoff`,
`e_shentsize`, `e_shnum`, capped at `NB_MAX_SECTION`. -/
def parse_sections (bytes : List Nat) (shoff shentsize shnum : Nat) :
    List (List Nat) :=
  parseTable bytes shoff shentsize shnum Parser.NB_MAX_SECTION

/-- Modelled from the spec: `Parser::parse_segments` loop shape — `e_phoff`,
`e_phentsize`, `e_phnum`, capped at `NB_MAX_SEGMENTS`. -/
def parse_segments (bytes : List Nat) (phoff phentsize phnum : Nat) :
    List (List Nat) :=
  parseTable bytes phoff phentsize phnum Parser.NB_MAX_SEGMENTS

/-- Modelled from the spec: `Parser::parse_static_symbols` loop shape,
capped at `NB_MAX_SYMBOLS`. -/
def parse_static_symbols (bytes : List Nat) (off entsize nbSymbols : Nat) :
    List (List Nat) :=
  parseTable bytes off entsize nbSymbols Parser.NB_MAX_SYMBOLS

/-- Modelled from the spec: `Parser::parse_dynamic_entries` loop shape,
capped at `NB_MAX_DYNAMIC_ENTRIES`. -/
def parse_dynamic_entries (bytes : List Nat) (off entsize count : Nat) :
    List (List Nat) :=
  parseTable bytes off entsize count Parser.NB_MAX_DYNAMIC_ENTRIES

/-- Modelled from the spec: `Parser::parse_dynamic_relocations` /
`parse_pltgot_relocations` loop shape, capped at `NB_MAX_RELOCATIONS`. -/
def parse_relocations (bytes : List Nat) (off entsize count : Nat) :
    List (List Nat) :=
  parseTable bytes off entsize count Parser.NB_MAX_RELOCATIONS

/-- Modelled from the spec: the SYSV hash bucket array read by
`Parser::parse_symbol_sysv_hash`, capped at `NB_MAX_BUCKETS`
(4-byte words). -/
def parse_sysv_hash_buckets (bytes : List Nat) (off nbucket : Nat) :
    List (List Nat) :=
  parseTable bytes off 4 nbucket Parser.NB_MAX_BUCKETS

/-- Modelled from the spec: the SYSV hash chain array read by
`Parser::parse_symbol_sysv_hash`, capped at `NB_MAX_CHAINS`
(4-byte words). -/
def parse_sysv_hash_chains (bytes : List Nat) (off nchain : Nat) :
    List (List Nat) :=
  parseTable bytes off 4 nchain Parser.NB_MAX_CHAINS

/-- Modelled from the spec: a note description payload is read bounded by
`MAX_NOTE_DESCRIPTION`. -/
def parse_note_description (bytes : List Nat) (off descsz : Nat) : List Nat :=
  (bytes.drop off).take (min descsz Parser.MAX_NOTE_DESCRIPTION)

/-- Modelled from the spec: a section's raw content is read bounded by
`MAX_SECTION_SIZE`. -/
def section_content (bytes : List Nat) (off size : Nat) : List Nat :=
  (bytes.drop off).take (min size Parser.MAX_SECTION_SIZE)

/-- Modelled from the spec: a segment's raw content is read bounded by
`MAX_SEGMENT_SIZE`. -/
def segment_content (bytes : List Nat) (off size : Nat) : List Nat :=
  (bytes.drop off).take (min size Parser.MAX_SEGMENT_SIZE)

theorem streamRead_some_bound (bytes : List Nat) (off len : Nat)
    (out : List Nat) (h : streamRead bytes off len = some out) :
    off + len ≤ bytes.length := by
  by_cases hle : off + len ≤ bytes.length
  · exact hle
  · rw [streamRead, if_neg hle] at h
    exact absurd h (Option.some_ne_none out).symm

theorem streamRead_isSome_iff (bytes : List Nat) (off len : Nat) :
    (streamRead bytes off len).isSome = true ↔ off + len ≤ bytes.length := by
  by_cases hle : off + len ≤ bytes.length <;>
    simp [streamRead, hle]

theorem filterMap_eq_map_filter {α β : Type} (f : α → Option β)
    (p : α → Prop) [DecidablePred p] (g : α → β)
    (hf : ∀ a, f a = if p a then some (g a) else none) (l : List α) :
    l.filterMap f = (l.filter (fun a => decide (p a))).map g := by
  induction l with
  | nil => rfl
  | cons a t ih =>
      rw [List.filterMap_cons, hf a]
      by_cases hp : p a
      · rw [if_pos hp, List.filter_cons_of_pos (by simpa using hp),
            List.map_cons, ih]
      · rw [if_neg hp, List.filter_cons_of_neg (by simpa using hp), ih]

theorem streamRead_eq_ite (bytes : List Nat) (off len : Nat) :
    streamRead bytes off len =
      if off + len ≤ bytes.length then
        some ((List.range len).map (fun j => bytes.getD (off + j) 0))
      else none := rfl

theorem parseTable_skips (bytes : List Nat) (off entsize count cap : Nat) :
    parseTable bytes off entsize count cap =
      ((List.range (min count cap)).filter
          (fun i => decide (off + i * entsize + entsize ≤ bytes.length))).map
        (fun i => (List.range entsize).map
          (fun j => bytes.getD (off + i * entsize + j) 0)) := by
  rw [parseTable]
  exact filterMap_eq_map_filter _
    (fun i => off + i * entsize + entsize ≤ bytes.length) _
    (fun i => streamRead_eq_ite bytes (off + i * entsize) entsize) _

theorem parseTable_length_le (bytes : List Nat) (off entsize count cap : Nat) :
    (parseTable bytes off entsize count cap).length ≤ min count cap := by
  calc (parseTable bytes off entsize count cap).length
      ≤ (List.range (min count cap)).length := List.length_filterMap_le _ _
    _ = min count cap := List.length_range _

theorem parseTable_length_inbounds (bytes : List Nat)
    (off entsize count cap : Nat)
    (h : off + count * entsize ≤ bytes.length) :
    (parseTable bytes off entsize count cap).length = min count cap := by
  rw [parseTable_skips]
  have hall : (List.range (min count cap)).filter
      (fun i => decide (off + i * entsize + entsize ≤ bytes.length)) =
      List.range (min count cap) := by
    rw [List.filter_eq_self]
    intro i hi
    rw [List.mem_range] at hi
    have hi1 : i + 1 ≤ count := by omega
    have h2 : (i + 1) * entsize ≤ count * entsize :=
      Nat.mul_le_mul_right _ hi1
    have h3 : i * entsize + entsize ≤ count * entsize := by
      rw [← Nat.succ_mul]
      exact h2
    simp only [decide_eq_true_eq]
    omega
  rw [hall, List.length_map, List.length_range]

theorem parseTable_empty_of_oob (bytes : List Nat)
    (off entsize count cap : Nat) (h : bytes.length < off + entsize) :
    parseTable bytes off entsize count cap = [] := by
  rw [parseTable_skips]
  have : (List.range (min count cap)).filter
      (fun i => decide (off + i * entsize + entsize ≤ bytes.length)) = [] := by
    rw [List.filter_eq_nil_iff]
    intro i _
    simp only [decide_eq_true_eq]
    intro hcontra
    have : off + entsize ≤ off + i * entsize + entsize := by omega
    omega
  rw [this, List.map_nil]

/-! ## Dynamic-symbol-count resolver

Modelled from the spec (§4.4): the format stores no dynamic-symbol count,
so `Parser::get_numberof_dynamic_symbols` consults up to five estimators —
standard (SYSV) hash-table chain count, GNU hash layout, section
metadata, PLT/GOT relocation high-watermark, or a caller-selected
explicit method — in the fixed auto preference order
hash > GNU hash > section > relocations. -/

/-- SYSV hash table header: `nbucket`, `nchain`. -/
structure SysvHash where
  nbucket : Nat
  nchain : Nat
  deriving DecidableEq

/-- GNU hash table layout: first hashed symbol index `symndx`, the bucket
array (each entry a dynamic-symbol index or 0), and the chain words (one
per hashed symbol; an odd word — stop bit set — ends its chain). -/
structure GnuHash where
  symndx : Nat
  buckets : List Nat
  chains : List Nat
  deriving DecidableEq

/-- `.dynsym` section metadata: byte `size` and `entsize` of one record. -/
structure SectionMeta where
  size : Nat
  entsize : Nat
  deriving DecidableEq

/-- The tables of one input relevant to dynamic-symbol counting; `none`
means the table is absent.  `pltgotRelocs` lists the dynamic-symbol index
referenced by each PLT/GOT relocation. -/
structure DynSymInput where
  sysv : Option SysvHash
  gnu : Option GnuHash
  sect : Option SectionMeta
  pltgotRelocs : List Nat
  deriving DecidableEq

/-- Modelled from the spec: walk a GNU hash chain from relative index `r`
until a stop-bit word or the end of the chain array, returning the
relative index one past the chain's last word. -/
def gnuChainEnd (chains : List Nat) : Nat → Nat → Nat
  | r, 0 => r
  | r, fuel + 1 =>
      match chains.get? r with
      | none => r
      | some c => if c % 2 = 1 then r + 1 else gnuChainEnd chains (r + 1) fuel

/-- Modelled from the spec: `Parser::nb_dynsym_sysv_hash` — the SYSV hash
chain count `nchain` is the number of dynamic symbols. -/
def nb_dynsym_sysv_hash (inp : DynSymInput) : Nat :=
  match inp.sysv with
  | none => 0
  | some h => h.nchain

/-- Modelled from the spec: `Parser::nb_dynsym_gnu_hash` — take the
highest dynamic-symbol index reached by any bucket and follow its chain
to the stop bit; the index one past the chain end is the symbol count. -/
def nb_dynsym_gnu_hash (inp : DynSymInput) : Nat :=
  match inp.gnu with
  | none => 0
  | some g =>
      let maxBucket := g.buckets.foldl max 0
      if maxBucket < g.symndx then 0
      else g.symndx +
        gnuChainEnd g.chains (maxBucket - g.symndx) (g.chains.length + 1)

/-- Modelled from the spec: `Parser::nb_dynsym_section` — the
`.dynsym` section's byte size divided by its entry size. -/
def nb_dynsym_section (inp : DynSymInput) : Nat :=
  match inp.sect with
  | none => 0
  | some s => s.size / s.entsize

/-- Modelled from the spec: `Parser::nb_dynsym_relocations` — the largest
dynamic-symbol index referenced by any PLT/GOT relocation, plus one. -/
def nb_dynsym_relocations (inp : DynSymInput) : Nat :=
  match inp.pltgotRelocs with
  | [] => 0
  | r :: t => (t.foldl max r) + 1

/-- The dynamic-symbol-count method selector
(`DYNSYM_COUNT_METHODS`, spec §6: `AUTO | HASH | GNU_HASH | SECTION |
RELOCATIONS`). -/
inductive DYNSYM_COUNT_METHODS where
  | COUNT_AUTO
  | COUNT_HASH
  | COUNT_GNU_HASH
  | COUNT_SECTION
  | COUNT_RELOCATIONS
  deriving DecidableEq

/-- The raw value produced by one explicit estimator. -/
def rawEstimate (mtd : DYNSYM_COUNT_METHODS) (inp : DynSymInput) : Nat :=
  match mtd with
  | .COUNT_AUTO => 0
  | .COUNT_HASH => nb_dynsym_sysv_hash inp
  | .COUNT_GNU_HASH => nb_dynsym_gnu_hash inp
  | .COUNT_SECTION => nb_dynsym_section inp
  | .COUNT_RELOCATIONS => nb_dynsym_relocations inp

/-- Modelled from the spec: an over-limit estimate is treated as `0`. -/
def clampEstimate (x : Nat) : Nat :=
  if x > Parser.NB_MAX_SYMBOLS then 0 else x

/-- Dynamic-symbol-count failures surfaced to the caller. -/
inductive lief_errors where
  | unreliable_count
  deriving DecidableEq

/-- The first non-zero value of a list of estimates, `0` when none. -/
def firstNonzero : List Nat → Nat
  | [] => 0
  | x :: t => if x ≠ 0 then x else firstNonzero t

/-- Modelled from the spec: `Parser::get_numberof_dynamic_symbols` — in
`AUTO` mode, take the first estimator yielding a plausible (non-zero,
within-maximum) value in the preference order
hash > GNU hash > section > relocations, falling back to `0` when all
fail; in an explicit mode, return that estimator's clamped value, or the
`unreliable_count` failure when its raw estimate exceeds
`NB_MAX_SYMBOLS`. -/
def explicitCount (m : DYNSYM_COUNT_METHODS) (inp : DynSymInput) :
    Except lief_errors Nat :=
  if rawEstimate m inp > Parser.NB_MAX_SYMBOLS then
    .error .unreliable_count
  else .ok (rawEstimate m inp)

def get_numberof_dynamic_symbols (mtd : DYNSYM_COUNT_METHODS)
    (inp : DynSymInput) : Except lief_errors Nat :=
  match mtd with
  | .COUNT_AUTO =>
      .ok (firstNonzero
        ([DYNSYM_COUNT_METHODS.COUNT_HASH,
          DYNSYM_COUNT_METHODS.COUNT_GNU_HASH,
          DYNSYM_COUNT_METHODS.COUNT_SECTION,
          DYNSYM_COUNT_METHODS.COUNT_RELOCATIONS].map
          (fun m => clampEstimate (rawEstimate m inp))))
  | .COUNT_HASH => explicitCount .COUNT_HASH inp
  | .COUNT_GNU_HASH => explicitCount .COUNT_GNU_HASH inp
  | .COUNT_SECTION => explicitCount .COUNT_SECTION inp
  | .COUNT_RELOCATIONS => explicitCount .COUNT_RELOCATIONS inp

/-- A GNU hash table that correctly describes `n` dynamic symbols: one
chain word per hashed symbol (indices `symndx … n-1`), stop bit set
exactly on the last word, and the buckets reach a real symbol index below
`n` and at least `symndx`. -/
def GnuDescribes (g : GnuHash) (n : Nat) : Prop :=
  0 < g.chains.length ∧
  g.symndx + g.chains.length = n ∧
  (∀ i, i + 1 < g.chains.length →
    ∀ c, g.chains.get? i = some c → c % 2 = 0) ∧
  (∀ c, g.chains.get? (g.chains.length - 1) = some c → c % 2 = 1) ∧
  g.symndx ≤ g.buckets.foldl max 0 ∧
  g.buckets.foldl max 0 < n

/-- A well-formed input with `n` dynamic symbols: every table that is
present correctly describes `n` — the SYSV chain count is `n`, the GNU
hash layout encodes `n`, the section metadata divides to `n`, and the
PLT/GOT relocations (when any exist) reference `n - 1` as their highest
symbol index. -/
def WellFormedDynSym (inp : DynSymInput) (n : Nat) : Prop :=
  (∀ h, inp.sysv = some h → h.nchain = n) ∧
  (∀ g, inp.gnu = some g → GnuDescribes g n) ∧
  (∀ s, inp.sect = some s → 0 < s.entsize ∧ s.size = n * s.entsize) ∧
  (∀ r t, inp.pltgotRelocs = r :: t → 0 < n ∧ t.foldl max r = n - 1)

theorem gnuChainEnd_complete (chains : List Nat) (r fuel : Nat)
    (hr : r < chains.length)
    (heven : ∀ i, i + 1 < chains.length →
      ∀ c, chains.get? i = some c → c % 2 = 0)
    (hodd : ∀ c, chains.get? (chains.length - 1) = some c → c % 2 = 1)
    (hfuel : chains.length - r ≤ fuel) :
    gnuChainEnd chains r fuel = chains.length := by
  induction fuel generalizing r with
  | zero => omega
  | succ fuel ih =>
      obtain ⟨c, hc⟩ : ∃ c, chains.get? r = some c := by
        rw [List.get?_eq_get hr]
        exact ⟨_, rfl⟩
      rw [gnuChainEnd, hc]
      show (if c % 2 = 1 then r + 1 else gnuChainEnd chains (r + 1) fuel) =
        chains.length
      by_cases hlast : r = chains.length - 1
      · have : c % 2 = 1 := hodd c (hlast ▸ hc)
        rw [if_pos this]
        omega
      · have hlt : r + 1 < chains.length := by omega
        have : c % 2 = 0 := heven r hlt c hc
        rw [if_neg (by omega)]
        exact ih (r + 1) hlt (by omega)

theorem rawEstimate_dichotomy (mtd : DYNSYM_COUNT_METHODS)
    (inp : DynSymInput) (n : Nat) (hwf : WellFormedDynSym inp n) :
    rawEstimate mtd inp = 0 ∨ rawEstimate mtd inp = n := by
  obtain ⟨hsysv, hgnu, hsect, hreloc⟩ := hwf
  cases mtd with
  | COUNT_AUTO => left; rfl
  | COUNT_HASH =>
      cases hs : inp.sysv with
      | none => left; simp [rawEstimate, nb_dynsym_sysv_hash, hs]
      | some h =>
          right
          simp [rawEstimate, nb_dynsym_sysv_hash, hs, hsysv h hs]
  | COUNT_GNU_HASH =>
      cases hg : inp.gnu with
      | none => left; simp [rawEstimate, nb_dynsym_gnu_hash, hg]
      | some g =>
          right
          obtain ⟨hpos, hsum, heven, hodd, hsyml, hmaxl⟩ := hgnu g hg
          simp only [rawEstimate, nb_dynsym_gnu_hash, hg]
          rw [if_neg (by omega)]
          have hr : g.buckets.foldl max 0 - g.symndx < g.chains.length := by
            omega
          rw [gnuChainEnd_complete g.chains _ _ hr heven hodd (by omega)]
          omega
  | COUNT_SECTION =>
      cases hs : inp.sect with
      | none => left; simp [rawEstimate, nb_dynsym_section, hs]
      | some s =>
          right
          obtain ⟨hent, hsize⟩ := hsect s hs
          simp only [rawEstimate, nb_dynsym_section, hs, hsize]
          exact Nat.mul_div_cancel n hent
  | COUNT_RELOCATIONS =>
      cases hp : inp.pltgotRelocs with
      | nil => left; simp [rawEstimate, nb_dynsym_relocations, hp]
      | cons r t =>
          right
          obtain ⟨hn, hmax⟩ := hreloc r t hp
          simp only [rawEstimate, nb_dynsym_relocations, hp, hmax]
          omega

/-! ## Symbol-versioning subsystem

Modelled from the spec (§4.7): the version-definition and
version-requirement tables are bounded linked chains — each 16-byte
entry stores the byte offset to the next entry in its last 4-byte field —
walked at most `min (declared count) NB_MAX_SYMBOLS` times.  A separate
pass links each dynamic symbol's 16-bit version index to a sentinel
(`0`/`1`) or to the matching table entry's auxiliary record, definitions
first then requirements. -/

/-- Modelled from the spec: follow a version chain for at most `fuel`
entries, stopping early on a truncated read and keeping the entries
decoded so far.  The chain is never followed past the fuel bound, so a
cyclic `next` chain (for example a zero `next` field that revisits the
same offset forever) still terminates. -/
def walkVerChain (bytes : List Nat) : Nat → Nat → List (List Nat)
  | _, 0 => []
  | off, fuel + 1 =>
      match streamRead bytes off 16 with
      | none => []
      | some raw =>
          raw :: walkVerChain bytes
            (off + fromLEBytes ((raw.drop 12).take 4)) fuel

/-- Modelled from the spec: `Parser::parse_symbol_version_requirement` —
walk the `DT_VERNEED` chain at most
`min DT_VERNEEDNUM NB_MAX_SYMBOLS` times. -/
def parse_symbol_version_requirement (bytes : List Nat)
    (off nb_entries : Nat) : List (List Nat) :=
  walkVerChain bytes off (min nb_entries Parser.NB_MAX_SYMBOLS)

/-- Modelled from the spec: `Parser::parse_symbol_version_definition` —
walk the `DT_VERDEF` chain at most
`min DT_VERDEFNUM NB_MAX_SYMBOLS` times. -/
def parse_symbol_version_definition (bytes : List Nat)
    (off nb_entries : Nat) : List (List Nat) :=
  walkVerChain bytes off (min nb_entries Parser.NB_MAX_SYMBOLS)

theorem walkVerChain_length_le (bytes : List Nat) (off fuel : Nat) :
    (walkVerChain bytes off fuel).length ≤ fuel := by
  induction fuel generalizing off with
  | zero => simp [walkVerChain]
  | succ fuel ih =>
      rw [walkVerChain]
      cases streamRead bytes off 16 with
      | none => simp
      | some raw =>
          simp only [List.length_cons]
          exact Nat.succ_le_succ (ih _)

theorem walkVerChain_prefix (bytes : List Nat) (off f1 f2 : Nat)
    (h : f1 ≤ f2) :
    walkVerChain bytes off f1 = (walkVerChain bytes off f2).take f1 := by
  induction f1 generalizing off f2 with
  | zero => simp [walkVerChain]
  | succ f1 ih =>
      obtain ⟨f2', rfl⟩ : ∃ f2', f2 = f2' + 1 :=
        ⟨f2 - 1, by omega⟩
      rw [walkVerChain, walkVerChain]
      cases streamRead bytes off 16 with
      | none => simp
      | some raw =>
          rw [List.take_succ_cons]
          exact congrArg (raw :: ·) (ih _ f2' (by omega))

/-! ## Per-symbol version linking

Data model from `include/LIEF/ELF/SymbolVersion.hpp`: a `SymbolVersion`
holds a 16-bit `value_` and an optional auxiliary record pointer
`symbol_aux_` (null by default).  The linking pass
`Parser::link_symbol_version` is modelled from the spec. -/

/-- One version-definition entry as seen by the linker: its version
index (`vd_ndx`) and the identity of its auxiliary record. -/
structure VerdefEntry where
  ndx : Nat
  auxId : Nat
  deriving DecidableEq

/-- One version-requirement auxiliary entry: its version index
(`vna_other`) and the identity of its auxiliary record. -/
structure VerneedAuxEntry where
  other : Nat
  auxId : Nat
  deriving DecidableEq

/-- `SymbolVersion` (SymbolVersion.hpp:71-73): `value_` plus the optional
auxiliary record `symbol_aux_`. -/
structure SymbolVersion where
  value : Nat
  symbol_aux : Option Nat
  deriving DecidableEq

/-- `SymbolVersion::has_auxiliary_version` (SymbolVersion.hpp:56):
whether `symbol_aux_` is set. -/
def SymbolVersion.has_auxiliary_version (sv : SymbolVersion) : Bool :=
  sv.symbol_aux.isSome

/-- Modelled from the spec: `Parser::link_symbol_version` — a version
table index `0`/`1` yields the local/global sentinel with no auxiliary;
an index `≥ 2` is matched against the version-definition entries first,
then the version-requirement entries, by their internal version-index
field; no match yields a `SymbolVersion` with no auxiliary. -/
def link_symbol_version (idx : Nat) (defs : List VerdefEntry)
    (reqs : List VerneedAuxEntry) : SymbolVersion :=
  if idx = 0 ∨ idx = 1 then { value := idx, symbol_aux := none }
  else
    match defs.find? (fun d => d.ndx == idx) with
    | some d => { value := idx, symbol_aux := some d.auxId }
    | none =>
        match reqs.find? (fun r => r.other == idx) with
        | some r => { value := idx, symbol_aux := some r.auxId }
        | none => { value := idx, symbol_aux := none }

/-! ## Header validation

Modelled from the spec (§4.2, §7): a magic mismatch aborts the whole
parse with `MalformedHeader`; a class byte that is neither the 32-bit nor
the 64-bit recognized value aborts with `UnsupportedClass`; otherwise
parsing proceeds and a model is produced. -/

/-- The four ELF magic bytes. -/
def ELFMAG : List Nat := [0x7f, 0x45, 0x4c, 0x46]

/-- `ELFCLASS32`. -/
def ELFCLASS32 : Nat := 1

/-- `ELFCLASS64`. -/
def ELFCLASS64 : Nat := 2

/-- Fatal header-validation failures. -/
inductive HeaderError where
  | MalformedHeader
  | UnsupportedClass
  deriving DecidableEq

/-- The validated header fields every later stage depends on: here the
word-width class selected once for the whole parse. -/
structure Header where
  elf_class : Nat
  deriving DecidableEq

/-- The object model produced by a successful parse (root of the object
graph, tagged with its class). -/
structure Binary where
  header : Header
  deriving DecidableEq

/-- Modelled from the spec: `Parser::parse_header` — validate the magic,
then the class byte at index 4 (`EI_CLASS`). -/
def parse_header (bytes : List Nat) : Except HeaderError Header :=
  if bytes.take 4 ≠ ELFMAG then .error .MalformedHeader
  else
    match bytes.get? 4 with
    | some c =>
        if c = ELFCLASS32 ∨ c = ELFCLASS64 then .ok { elf_class := c }
        else .error .UnsupportedClass
    | none => .error .UnsupportedClass

/-- Modelled from the spec: `Parser::parse_binary` — header validation is
the only fatal stage; every later stage is tolerant, so a validated
header always yields a model. -/
def parse_binary (bytes : List Nat) : Except HeaderError Binary :=
  (parse_header bytes).map (fun h => { header := h })

/-! ## Claim theorems -/

/-- C1: every stream read that succeeds lies inside the input — no byte at
an index above `bytes.length - 1` is ever touched; a table decode keeps
exactly the records whose extent fits in the stream, skipping
out-of-range records instead of aborting; and a table whose very first
record already exceeds the stream's extent decodes to the empty table. -/
theorem C1_no_read_past_stream (bytes : List Nat) (off entsize count cap
    len shoff shentsize shnum : Nat) (out : List Nat) :
    (streamRead bytes off len = some out → off + len ≤ bytes.length) ∧
    (parseTable bytes off entsize count cap =
      ((List.range (min count cap)).filter
          (fun i => decide (off + i * entsize + entsize ≤ bytes.length))).map
        (fun i => (List.range entsize).map
          (fun j => bytes.getD (off + i * entsize + j) 0))) ∧
    (bytes.length < shoff + shentsize →
      parse_sections bytes shoff shentsize shnum = []) := by
  refine ⟨?_, parseTable_skips bytes off entsize count cap, ?_⟩
  · exact streamRead_some_bound bytes off len out
  · intro h
    exact parseTable_empty_of_oob bytes shoff shentsize shnum
      Parser.NB_MAX_SECTION h

/-- C1 witness: a successful in-bounds read, and a section table whose
declared offset exceeds a 3-byte stream decoding to the empty table. -/
theorem C1_no_read_past_stream_witness :
    parse_sections [7, 7, 7] 10 64 100 = [] :=
  (C1_no_read_past_stream [7, 7, 7] 0 0 0 0 0 10 64 100 []).2.2 (by decide)

/-- C3: the hard structural limits equal exactly the specified values —
symbols 1000000, buckets 1000000, chains 1000000, sections 10000,
segments 10000, relocations 3000000, dynamic entries 1000, note
description 1 MiB, section and segment raw size 300 MiB — and every
decode loop enforces its limit exactly: it never yields more than
`min declared cap` entries, and yields exactly `min declared cap` when
the records fit in the stream; raw content reads are clamped to their
byte limits. -/
theorem C3_structural_limits :
    Parser.NB_MAX_SYMBOLS = 1000000 ∧
    Parser.NB_MAX_BUCKETS = 1000000 ∧
    Parser.NB_MAX_CHAINS = 1000000 ∧
    Parser.NB_MAX_SECTION = 10000 ∧
    Parser.NB_MAX_SEGMENTS = 10000 ∧
    Parser.NB_MAX_RELOCATIONS = 3000000 ∧
    Parser.NB_MAX_DYNAMIC_ENTRIES = 1000 ∧
    Parser.MAX_NOTE_DESCRIPTION = 1024 * 1024 ∧
    Parser.MAX_SECTION_SIZE = 300 * 1024 * 1024 ∧
    Parser.MAX_SEGMENT_SIZE = 300 * 1024 * 1024 ∧
    (∀ b o e n, (parse_sections b o e n).length ≤ min n Parser.NB_MAX_SECTION ∧
      (o + n * e ≤ b.length →
        (parse_sections b o e n).length = min n Parser.NB_MAX_SECTION)) ∧
    (∀ b o e n, (parse_segments b o e n).length ≤ min n Parser.NB_MAX_SEGMENTS ∧
      (o + n * e ≤ b.length →
        (parse_segments b o e n).length = min n Parser.NB_MAX_SEGMENTS)) ∧
    (∀ b o e n, (parse_static_symbols b o e n).length ≤
        min n Parser.NB_MAX_SYMBOLS ∧
      (o + n * e ≤ b.length →
        (parse_static_symbols b o e n).length = min n Parser.NB_MAX_SYMBOLS)) ∧
    (∀ b o e n, (parse_dynamic_entries b o e n).length ≤
        min n Parser.NB_MAX_DYNAMIC_ENTRIES ∧
      (o + n * e ≤ b.length →
        (parse_dynamic_entries b o e n).length =
          min n Parser.NB_MAX_DYNAMIC_ENTRIES)) ∧
    (∀ b o e n, (parse_relocations b o e n).length ≤
        min n Parser.NB_MAX_RELOCATIONS ∧
      (o + n * e ≤ b.length →
        (parse_relocations b o e n).length =
          min n Parser.NB_MAX_RELOCATIONS)) ∧
    (∀ b o n, (parse_sysv_hash_buckets b o n).length ≤
        min n Parser.NB_MAX_BUCKETS ∧
      (o + n * 4 ≤ b.length →
        (parse_sysv_hash_buckets b o n).length = min n Parser.NB_MAX_BUCKETS)) ∧
    (∀ b o n, (parse_sysv_hash_chains b o n).length ≤
        min n Parser.NB_MAX_CHAINS ∧
      (o + n * 4 ≤ b.length →
        (parse_sysv_hash_chains b o n).length = min n Parser.NB_MAX_CHAINS)) ∧
    (∀ b o d, (parse_note_description b o d).length ≤
        Parser.MAX_NOTE_DESCRIPTION) ∧
    (∀ b o s, (section_content b o s).length ≤ Parser.MAX_SECTION_SIZE) ∧
    (∀ b o s, (segment_content b o s).length ≤ Parser.MAX_SEGMENT_SIZE) := by
  refine ⟨rfl, rfl, rfl, rfl, rfl, rfl, rfl, rfl, rfl, rfl,
    ?_, ?_, ?_, ?_, ?_, ?_, ?_, ?_, ?_, ?_⟩
  · exact fun b o e n => ⟨parseTable_length_le b o e n _,
      fun h => parseTable_length_inbounds b o e n _ h⟩
  · exact fun b o e n => ⟨parseTable_length_le b o e n _,
      fun h => parseTable_length_inbounds b o e n _ h⟩
  · exact fun b o e n => ⟨parseTable_length_le b o e n _,
      fun h => parseTable_length_inbounds b o e n _ h⟩
  · exact fun b o e n => ⟨parseTable_length_le b o e n _,
      fun h => parseTable_length_inbounds b o e n _ h⟩
  · exact fun b o e n => ⟨parseTable_length_le b o e n _,
      fun h => parseTable_length_inbounds b o e n _ h⟩
  · exact fun b o n => ⟨parseTable_length_le b o 4 n _,
      fun h => parseTable_length_inbounds b o 4 n _ h⟩
  · exact fun b o n => ⟨parseTable_length_le b o 4 n _,
      fun h => parseTable_length_inbounds b o 4 n _ h⟩
  · intro b o d
    rw [parse_note_description]
    calc ((b.drop o).take (min d Parser.MAX_NOTE_DESCRIPTION)).length
        ≤ min d Parser.MAX_NOTE_DESCRIPTION := by
          rw [List.length_take]
          omega
      _ ≤ Parser.MAX_NOTE_DESCRIPTION := Nat.min_le_right _ _
  · intro b o s
    rw [section_content]
    calc ((b.drop o).take (min s Parser.MAX_SECTION_SIZE)).length
        ≤ min s Parser.MAX_SECTION_SIZE := by
          rw [List.length_take]
          omega
      _ ≤ Parser.MAX_SECTION_SIZE := Nat.min_le_right _ _
  · intro b o s
    rw [segment_content]
    calc ((b.drop o).take (min s Parser.MAX_SEGMENT_SIZE)).length
        ≤ min s Parser.MAX_SEGMENT_SIZE := by
          rw [List.length_take]
          omega
      _ ≤ Parser.MAX_SEGMENT_SIZE := Nat.min_le_right _ _

/-- C3 witness: on a 20-byte stream, a section table of 5 two-byte records
decodes to exactly `min 5 10000 = 5` entries. -/
theorem C3_structural_limits_witness :
    (parse_sections (List.replicate 20 0) 0 2 5).length =
      min 5 Parser.NB_MAX_SECTION :=
  (C3_structural_limits.2.2.2.2.2.2.2.2.2.2.1 (List.replicate 20 0) 0 2 5).2
    (by simp)

/-- C2: for every well-formed input, any two dynamic-symbol-count
estimators that each return a non-zero value return equal values. -/
theorem C2_estimator_agreement (inp : DynSymInput) (n : Nat)
    (hwf : WellFormedDynSym inp n) (m1 m2 : DYNSYM_COUNT_METHODS)
    (h1 : rawEstimate m1 inp ≠ 0) (h2 : rawEstimate m2 inp ≠ 0) :
    rawEstimate m1 inp = rawEstimate m2 inp := by
  rcases rawEstimate_dichotomy m1 inp n hwf with hz | he
  · exact absurd hz h1
  · rcases rawEstimate_dichotomy m2 inp n hwf with hz | he2
    · exact absurd hz h2
    · rw [he, he2]

/-- A sample input on which all four estimators are live: SYSV chain count
42, a GNU hash table whose layout encodes 42 symbols, a `.dynsym`
section of 42 24-byte records, and PLT/GOT relocations whose highest
referenced symbol index is 41. -/
def inp42 : DynSymInput :=
  { sysv := some { nbucket := 17, nchain := 42 },
    gnu := some { symndx := 40, buckets := [40], chains := [0, 1] },
    sect := some { size := 1008, entsize := 24 },
    pltgotRelocs := [3, 41] }

theorem inp42_wellformed : WellFormedDynSym inp42 42 := by
  refine ⟨?_, ?_, ?_, ?_⟩
  · intro h hh
    simp only [inp42, Option.some.injEq] at hh
    rw [← hh]
  · intro g hg
    simp only [inp42, Option.some.injEq] at hg
    subst hg
    refine ⟨by decide, by decide, ?_, ?_, by decide, by decide⟩
    · intro i hi c hc
      have hi0 : i = 0 := by
        simp only [List.length_cons, List.length_nil] at hi
        omega
      subst hi0
      simp at hc
      omega
    · intro c hc
      simp at hc
      omega
  · intro s hs
    simp only [inp42, Option.some.injEq] at hs
    subst hs
    exact ⟨by decide, by decide⟩
  · intro r t hrt
    simp only [inp42, List.cons.injEq] at hrt
    obtain ⟨rfl, rfl⟩ := hrt
    exact ⟨by decide, by decide⟩

/-- C2 witness: on the sample input, the SYSV-hash and relocation
estimators are both non-zero and agree (both 42), via the agreement
theorem. -/
theorem C2_estimator_agreement_witness :
    rawEstimate DYNSYM_COUNT_METHODS.COUNT_HASH inp42 =
      rawEstimate DYNSYM_COUNT_METHODS.COUNT_RELOCATIONS inp42 :=
  C2_estimator_agreement inp42 42 inp42_wellformed
    DYNSYM_COUNT_METHODS.COUNT_HASH DYNSYM_COUNT_METHODS.COUNT_RELOCATIONS
    (by decide) (by decide)

theorem clampEstimate_le (x : Nat) : clampEstimate x ≤ Parser.NB_MAX_SYMBOLS := by
  rw [clampEstimate]
  split
  · exact Nat.zero_le _
  · omega

theorem firstNonzero_le (l : List Nat) (M : Nat)
    (h : ∀ x ∈ l, x ≤ M) : firstNonzero l ≤ M := by
  induction l with
  | nil => exact Nat.zero_le _
  | cons x t ih =>
      rw [firstNonzero]
      split
      · exact h x (List.mem_cons_self _ _)
      · exact ih (fun y hy => h y (List.mem_cons_of_mem _ hy))

/-- C4: every successfully returned dynamic-symbol count is at most
`NB_MAX_SYMBOLS`; an over-limit raw estimate is clamped to `0`; in `AUTO`
mode an over-limit first estimator makes the resolver fall back to the
remaining estimators; and an explicitly selected estimator whose raw
value is over the limit fails with `unreliable_count`. -/
theorem C4_count_clamped (mtd : DYNSYM_COUNT_METHODS) (inp : DynSymInput)
    (n x : Nat) :
    (get_numberof_dynamic_symbols mtd inp = .ok n →
      n ≤ Parser.NB_MAX_SYMBOLS) ∧
    (x > Parser.NB_MAX_SYMBOLS → clampEstimate x = 0) ∧
    (rawEstimate DYNSYM_COUNT_METHODS.COUNT_HASH inp >
        Parser.NB_MAX_SYMBOLS →
      get_numberof_dynamic_symbols DYNSYM_COUNT_METHODS.COUNT_AUTO inp =
        .ok (firstNonzero
          ([DYNSYM_COUNT_METHODS.COUNT_GNU_HASH,
            DYNSYM_COUNT_METHODS.COUNT_SECTION,
            DYNSYM_COUNT_METHODS.COUNT_RELOCATIONS].map
            (fun m => clampEstimate (rawEstimate m inp))))) ∧
    (mtd ≠ DYNSYM_COUNT_METHODS.COUNT_AUTO →
      rawEstimate mtd inp > Parser.NB_MAX_SYMBOLS →
      get_numberof_dynamic_symbols mtd inp = .error .unreliable_count) := by
  refine ⟨?_, ?_, ?_, ?_⟩
  · intro hok
    cases mtd with
    | COUNT_AUTO =>
        rw [get_numberof_dynamic_symbols] at hok
        have hn : n = firstNonzero
            ([DYNSYM_COUNT_METHODS.COUNT_HASH,
              DYNSYM_COUNT_METHODS.COUNT_GNU_HASH,
              DYNSYM_COUNT_METHODS.COUNT_SECTION,
              DYNSYM_COUNT_METHODS.COUNT_RELOCATIONS].map
              (fun m => clampEstimate (rawEstimate m inp))) := by
          cases hok
          rfl
        rw [hn]
        refine firstNonzero_le _ _ ?_
        intro y hy
        rw [List.mem_map] at hy
        obtain ⟨m, _, rfl⟩ := hy
        exact clampEstimate_le _
    | COUNT_HASH =>
        rw [get_numberof_dynamic_symbols, explicitCount] at hok
        by_cases hgt : rawEstimate DYNSYM_COUNT_METHODS.COUNT_HASH inp >
            Parser.NB_MAX_SYMBOLS
        · rw [if_pos hgt] at hok
          cases hok
        · rw [if_neg hgt] at hok
          cases hok
          omega
    | COUNT_GNU_HASH =>
        rw [get_numberof_dynamic_symbols, explicitCount] at hok
        by_cases hgt : rawEstimate DYNSYM_COUNT_METHODS.COUNT_GNU_HASH inp >
            Parser.NB_MAX_SYMBOLS
        · rw [if_pos hgt] at hok
          cases hok
        · rw [if_neg hgt] at hok
          cases hok
          omega
    | COUNT_SECTION =>
        rw [get_numberof_dynamic_symbols, explicitCount] at hok
        by_cases hgt : rawEstimate DYNSYM_COUNT_METHODS.COUNT_SECTION inp >
            Parser.NB_MAX_SYMBOLS
        · rw [if_pos hgt] at hok
          cases hok
        · rw [if_neg hgt] at hok
          cases hok
          omega
    | COUNT_RELOCATIONS =>
        rw [get_numberof_dynamic_symbols, explicitCount] at hok
        by_cases hgt : rawEstimate DYNSYM_COUNT_METHODS.COUNT_RELOCATIONS inp >
            Parser.NB_MAX_SYMBOLS
        · rw [if_pos hgt] at hok
          cases hok
        · rw [if_neg hgt] at hok
          cases hok
          omega
  · intro hx
    rw [clampEstimate, if_pos hx]
  · intro hgt
    rw [get_numberof_dynamic_symbols]
    have hclamp : clampEstimate
        (rawEstimate DYNSYM_COUNT_METHODS.COUNT_HASH inp) = 0 := by
      rw [clampEstimate, if_pos hgt]
    simp only [List.map_cons, List.map_nil, firstNonzero, hclamp]
    simp
  · intro hne hgt
    cases mtd with
    | COUNT_AUTO => exact absurd rfl hne
    | COUNT_HASH => rw [get_numberof_dynamic_symbols, explicitCount, if_pos hgt]
    | COUNT_GNU_HASH => rw [get_numberof_dynamic_symbols, explicitCount, if_pos hgt]
    | COUNT_SECTION => rw [get_numberof_dynamic_symbols, explicitCount, if_pos hgt]
    | COUNT_RELOCATIONS => rw [get_numberof_dynamic_symbols, explicitCount, if_pos hgt]

/-- A corrupt input whose SYSV chain count is over the symbol limit while
the section metadata still yields 3 symbols. -/
def inpOverLimit : DynSymInput :=
  { sysv := some { nbucket := 1, nchain := 2000000 },
    gnu := none,
    sect := some { size := 30, entsize := 10 },
    pltgotRelocs := [] }

/-- C4 witness: on the over-limit input, the explicit `HASH` method fails
with `unreliable_count`, and `AUTO` falls back past the clamped-to-zero
hash estimate to the remaining estimators. -/
theorem C4_count_clamped_witness :
    get_numberof_dynamic_symbols DYNSYM_COUNT_METHODS.COUNT_HASH
        inpOverLimit = .error .unreliable_count ∧
    get_numberof_dynamic_symbols DYNSYM_COUNT_METHODS.COUNT_AUTO
        inpOverLimit =
      .ok (firstNonzero
        ([DYNSYM_COUNT_METHODS.COUNT_GNU_HASH,
          DYNSYM_COUNT_METHODS.COUNT_SECTION,
          DYNSYM_COUNT_METHODS.COUNT_RELOCATIONS].map
          (fun m => clampEstimate (rawEstimate m inpOverLimit)))) :=
  ⟨(C4_count_clamped DYNSYM_COUNT_METHODS.COUNT_HASH inpOverLimit 0 0).2.2.2
      (by decide) (by decide),
   (C4_count_clamped DYNSYM_COUNT_METHODS.COUNT_HASH inpOverLimit 0 0).2.2.1
      (by decide)⟩

/-- C5 counterexample: assignment through `CoreAuxv::operator[]`
(CoreAuxv.cpp:96-98) mutates the mapping without rebuilding the payload:
starting from the empty note, `auxv[AT_PAGESZ] = 4096` leaves the
serialized description empty while the mapping is non-empty, so the
payload does not equal the re-encoding of the current mapping. -/
theorem C5_indexAssign_stale_payload :
    ¬ ((CoreAuxv.indexAssign { ctx := [], desc := [] } 6 4096).desc =
        buildDesc 8 (CoreAuxv.indexAssign { ctx := [], desc := [] } 6 4096).ctx) := by
  decide

/-- C5 (amended): keys of the mapping are unique — the sorted-unique-key
invariant is preserved and re-setting a key overwrites its value — and
the mutators that call `build()` (`values(ctx)` and `set`) leave the
serialized payload equal to the re-encoding of the current mapping; an
`operator[]` assignment performs the same mapping update but leaves the
payload untouched (no rebuild). -/
theorem C5_eager_rebuild (w : Nat) (a : CoreAuxv) (c : AuxMap) (k v : Nat)
    (hs : AuxSorted a.ctx) :
    AuxSorted ((a.set w k v).ctx) ∧
    auxLookup k ((a.set w k v).ctx) = some v ∧
    (∀ j, j ≠ k →
      auxLookup j ((a.set w k v).ctx) = auxLookup j a.ctx) ∧
    (a.set w k v).desc = buildDesc w ((a.set w k v).ctx) ∧
    (a.valuesSet w c).desc = buildDesc w ((a.valuesSet w c).ctx) ∧
    (a.indexAssign k v).ctx = (a.set w k v).ctx ∧
    (a.indexAssign k v).desc = a.desc := by
  refine ⟨?_, ?_, ?_, rfl, rfl, rfl, rfl⟩
  · exact auxSorted_auxInsert k v a.ctx hs
  · exact auxLookup_auxInsert_self k v a.ctx
  · exact fun j hj => auxLookup_auxInsert_ne k v j a.ctx hj

/-- C5 witness: the amended claim at a concrete 64-bit note holding
`{AT_PAGESZ: 4096}`, overwriting that key with value 7. -/
theorem C5_eager_rebuild_witness :
    auxLookup 6 ((CoreAuxv.set 8 { ctx := [(6, 4096)], desc := [] } 6 7).ctx) =
        some 7 ∧
    (CoreAuxv.set 8 { ctx := [(6, 4096)], desc := [] } 6 7).desc =
      buildDesc 8 ((CoreAuxv.set 8 { ctx := [(6, 4096)], desc := [] } 6 7).ctx) :=
  ⟨(C5_eager_rebuild 8 { ctx := [(6, 4096)], desc := [] } [] 6 7
      (by decide)).2.1,
   (C5_eager_rebuild 8 { ctx := [(6, 4096)], desc := [] } [] 6 7
      (by decide)).2.2.2.1⟩

/-- C6: for every sorted mapping of recognized auxiliary-vector keys to
64-bit values, `values(ctx)` followed by `values()` returns `ctx`, the
payload rebuilt from `ctx` re-parses to the same mapping, and parsing the
note state produced by `values(ctx)` recovers `ctx`. -/
theorem C6_values_roundtrip (a : CoreAuxv) (ctx : AuxMap)
    (hsorted : AuxSorted ctx)
    (hrec : ∀ p ∈ ctx, recognizedAux p.1 = true ∧ p.2 < 2 ^ 64) :
    (a.valuesSet 8 ctx).valuesGet = ctx ∧
    parseDesc 8 (buildDesc 8 ctx) = ctx ∧
    ((a.valuesSet 8 ctx).parse 8).valuesGet = ctx := by
  have hfit : ∀ p ∈ ctx, p.1 < 256 ^ 8 ∧ p.2 < 256 ^ 8 := by
    intro p hp
    obtain ⟨h1, h2⟩ := hrec p hp
    rw [recognizedAux, decide_eq_true_eq] at h1
    constructor
    · omega
    · calc p.2 < 2 ^ 64 := h2
        _ = 256 ^ 8 := by norm_num
  have hround : parseDesc 8 (buildDesc 8 ctx) = ctx :=
    parseDesc_buildDesc 8 (by omega) ctx hsorted hfit
  refine ⟨rfl, hround, ?_⟩
  show parseDesc 8 (buildDesc 8 ctx) = ctx
  exact hround

/-- C6 witness: the round trip at the concrete mapping
`{AT_PAGESZ: 4096, AT_ENTRY: 0x400000}`. -/
theorem C6_values_roundtrip_witness :
    parseDesc 8 (buildDesc 8 [(6, 4096), (9, 4194304)]) =
      [(6, 4096), (9, 4194304)] :=
  (C6_values_roundtrip { ctx := [], desc := [] } [(6, 4096), (9, 4194304)]
    (by decide) (by decide)).2.1

/-- C7: a version-table index of `0` or `1` yields a `SymbolVersion`
without an auxiliary version (the local/global sentinels never carry
one); an index `≥ 2` matching no version-definition and no
version-requirement entry also yields no auxiliary version; and in every
case linking produces a `SymbolVersion` carrying the index — the parse
never fails. -/
theorem C7_sentinel_no_aux (idx : Nat) (defs : List VerdefEntry)
    (reqs : List VerneedAuxEntry) :
    ((idx = 0 ∨ idx = 1) →
      (link_symbol_version idx defs reqs).has_auxiliary_version = false) ∧
    (2 ≤ idx →
      defs.find? (fun d => d.ndx == idx) = none →
      reqs.find? (fun r => r.other == idx) = none →
      (link_symbol_version idx defs reqs).has_auxiliary_version = false) ∧
    (link_symbol_version idx defs reqs).value = idx := by
  refine ⟨?_, ?_, ?_⟩
  · intro hsent
    rw [link_symbol_version, if_pos hsent]
    rfl
  · intro hge hdefs hreqs
    rw [link_symbol_version, if_neg (by omega), hdefs, hreqs]
    rfl
  · rw [link_symbol_version]
    by_cases hsent : idx = 0 ∨ idx = 1
    · rw [if_pos hsent]
    · rw [if_neg hsent]
      cases defs.find? (fun d => d.ndx == idx) with
      | some d => rfl
      | none =>
          cases reqs.find? (fun r => r.other == idx) with
          | some r => rfl
          | none => rfl

/-- C7 witness: the sentinel index `1` and the unmatched index `5`
against a table containing only version index `3`, via the linking
theorem. -/
theorem C7_sentinel_no_aux_witness :
    (link_symbol_version 1 [{ ndx := 3, auxId := 0 }]
        [{ other := 3, auxId := 1 }]).has_auxiliary_version = false ∧
    (link_symbol_version 5 [{ ndx := 3, auxId := 0 }]
        [{ other := 3, auxId := 1 }]).has_auxiliary_version = false :=
  ⟨(C7_sentinel_no_aux 1 [{ ndx := 3, auxId := 0 }]
      [{ other := 3, auxId := 1 }]).1 (Or.inr rfl),
   (C7_sentinel_no_aux 5 [{ ndx := 3, auxId := 0 }]
      [{ other := 3, auxId := 1 }]).2.1 (by omega) (by decide) (by decide)⟩

theorem parse_header_badmag (bytes : List Nat)
    (hmag : bytes.take 4 ≠ ELFMAG) :
    parse_header bytes = .error .MalformedHeader := by
  rw [parse_header, if_pos (by simpa using hmag)]

theorem parse_header_noclass (bytes : List Nat)
    (hmag : bytes.take 4 = ELFMAG) (hcls : bytes.get? 4 = none) :
    parse_header bytes = .error .UnsupportedClass := by
  rw [parse_header, if_neg (by simpa using hmag), hcls]

theorem parse_header_some (bytes : List Nat) (c : Nat)
    (hmag : bytes.take 4 = ELFMAG) (hcls : bytes.get? 4 = some c) :
    parse_header bytes =
      if c = ELFCLASS32 ∨ c = ELFCLASS64 then .ok { elf_class := c }
      else .error .UnsupportedClass := by
  rw [parse_header, if_neg (by simpa using hmag), hcls]

/-- C8: the parse aborts with no model exactly when the header is
structurally invalid — a magic mismatch yields `MalformedHeader`, a
class byte that is neither `ELFCLASS32` nor `ELFCLASS64` yields
`UnsupportedClass`, and a model is produced precisely when both checks
pass. -/
theorem C8_fatal_header (bytes : List Nat) :
    (parse_binary bytes = .error .MalformedHeader ↔
      bytes.take 4 ≠ ELFMAG) ∧
    (parse_binary bytes = .error .UnsupportedClass ↔
      bytes.take 4 = ELFMAG ∧
        ∀ c, bytes.get? 4 = some c → c ≠ ELFCLASS32 ∧ c ≠ ELFCLASS64) ∧
    ((∃ b, parse_binary bytes = .ok b) ↔
      bytes.take 4 = ELFMAG ∧
        ∃ c, bytes.get? 4 = some c ∧ (c = ELFCLASS32 ∨ c = ELFCLASS64)) := by
  by_cases hmag : bytes.take 4 = ELFMAG
  · cases hcls : bytes.get? 4 with
    | none =>
        rw [parse_binary, parse_header_noclass bytes hmag hcls]
        refine ⟨?_, ?_, ?_⟩
        · simp [hmag, Except.map]
        · simp [hmag, Except.map, hcls]
        · simp [Except.map, hcls]
    | some c =>
        rw [parse_binary, parse_header_some bytes c hmag hcls]
        by_cases hok : c = ELFCLASS32 ∨ c = ELFCLASS64
        · rw [if_pos hok]
          refine ⟨?_, ?_, ?_⟩
          · simp [hmag, Except.map]
          · simp [hmag, Except.map, hcls]
            tauto
          · simp [hmag, Except.map, hcls]
            exact hok
        · rw [if_neg hok]
          refine ⟨?_, ?_, ?_⟩
          · simp [hmag, Except.map]
          · simp [hmag, Except.map, hcls]
            tauto
          · simp [hmag, Except.map, hcls]
            tauto
  · rw [parse_binary, parse_header_badmag bytes (by simpa using hmag)]
    refine ⟨?_, ?_, ?_⟩
    · simp [hmag, Except.map]
    · simp [hmag, Except.map]
    · simp [hmag, Except.map]

/-- C8 witness: a bad-magic input aborts with `MalformedHeader`, a good
magic with class byte `9` aborts with `UnsupportedClass`, and a good
magic with class byte `2` produces a model. -/
theorem C8_fatal_header_witness :
    parse_binary [0, 1, 2] = .error .MalformedHeader ∧
    parse_binary [0x7f, 0x45, 0x4c, 0x46, 9] = .error .UnsupportedClass ∧
    (∃ b, parse_binary [0x7f, 0x45, 0x4c, 0x46, 2] = .ok b) :=
  ⟨(C8_fatal_header [0, 1, 2]).1.mpr (by decide),
   (C8_fatal_header [0x7f, 0x45, 0x4c, 0x46, 9]).2.1.mpr
     ⟨by decide, by
        intro c hc
        simp at hc
        simp [ELFCLASS32, ELFCLASS64]
        omega⟩,
   (C8_fatal_header [0x7f, 0x45, 0x4c, 0x46, 2]).2.2.mpr
     ⟨by decide, 2, by decide, by decide⟩⟩

/-- C9: decoding a version-definition or version-requirement table
follows the per-entry next offsets at most
`min (declared count) NB_MAX_SYMBOLS` times — the walk is total by
construction, so it terminates on every input, cyclic or truncated
chains included — and the entries decoded before the bound is hit are
kept: a shorter bound yields exactly a prefix of a longer walk. -/
theorem C9_bounded_version_chain (bytes : List Nat) (off n : Nat) :
    (parse_symbol_version_requirement bytes off n).length ≤
        min n Parser.NB_MAX_SYMBOLS ∧
    (parse_symbol_version_definition bytes off n).length ≤
        min n Parser.NB_MAX_SYMBOLS ∧
    (∀ m, m ≤ n →
      parse_symbol_version_requirement bytes off m =
        (parse_symbol_version_requirement bytes off n).take
          (min m Parser.NB_MAX_SYMBOLS)) ∧
    (∀ m, m ≤ n →
      parse_symbol_version_definition bytes off m =
        (parse_symbol_version_definition bytes off n).take
          (min m Parser.NB_MAX_SYMBOLS)) := by
  refine ⟨walkVerChain_length_le bytes off _,
    walkVerChain_length_le bytes off _, ?_, ?_⟩
  · intro m hm
    exact walkVerChain_prefix bytes off _ _ (by omega)
  · intro m hm
    exact walkVerChain_prefix bytes off _ _ (by omega)

/-- C9 witness: a single all-zero 16-byte record is a cyclic chain (its
next offset is 0, so the walk revisits offset 0 forever); the walk still
terminates, and a declared count of 3 yields exactly the first 3 entries
of the walk with declared count 5. -/
theorem C9_bounded_version_chain_witness :
    parse_symbol_version_requirement (List.replicate 16 0) 0 3 =
      (parse_symbol_version_requirement (List.replicate 16 0) 0 5).take
        (min 3 Parser.NB_MAX_SYMBOLS) :=
  (C9_bounded_version_chain (List.replicate 16 0) 0 5).2.2.1 3 (by omega)

/-- C10: `CoreAuxv::get` returns the stored value and writes `false`
through the error pointer when the key is present, returns `0` and
writes `true` when it is absent; with a null error pointer a missing key
returns plain `0`, indistinguishable from a stored value of `0`. -/
theorem C10_get_error_contract (a : CoreAuxv) (k : Nat) :
    (∀ v, auxLookup k a.ctx = some v → a.get k = (v, false)) ∧
    (a.has k = false → a.get k = (0, true)) ∧
    (a.has k = false → a.getNull k = 0 ∧
      a.getNull k = (a.indexAssign k 0).getNull k) := by
  refine ⟨?_, ?_, ?_⟩
  · intro v hv
    simp [CoreAuxv.get, CoreAuxv.has, hv]
  · intro hfalse
    simp [CoreAuxv.get, hfalse]
  · intro hfalse
    simp only [CoreAuxv.has] at hfalse
    constructor
    · simp [CoreAuxv.getNull, CoreAuxv.get, CoreAuxv.has, hfalse]
    · simp [CoreAuxv.getNull, CoreAuxv.get, CoreAuxv.has,
        CoreAuxv.indexAssign, hfalse, auxLookup_auxInsert_self]

/-- C10 witness: on the note `{AT_PAGESZ: 4096}`, looking up the absent
`AT_UID` (code 11) yields `(0, error)` while the present `AT_PAGESZ`
(code 6) yields `(4096, no error)`. -/
theorem C10_get_error_contract_witness :
    CoreAuxv.get { ctx := [(6, 4096)], desc := [] } 11 = (0, true) ∧
    CoreAuxv.get { ctx := [(6, 4096)], desc := [] } 6 = (4096, false) :=
  ⟨(C10_get_error_contract { ctx := [(6, 4096)], desc := [] } 11).2.1
      (by decide),
   (C10_get_error_contract { ctx := [(6, 4096)], desc := [] } 6).1 4096
      (by decide)⟩

end ELF

end LIEF
